import Mathlib

set_option linter.unusedSectionVars false

/-!
Shallow embedding of the binary heap implemented in
`src/data-structures/heap.js`.

The heap state is the backing dynamic array `this._heap`, modelled as a
`List α`; the comparator `this._cmp` is a function `α → α → Int`
(JS comparators return a number whose sign is tested with `> 0`).
All public operations (`add`, `top`, `extract`, `changeKey`, `update`,
`isEmpty`) are translated as pure functions on that state; `extract`,
which throws on an empty heap, returns an `Option` instead, mirroring the
fact that the JS code throws before touching the state.

The two repositioning passes are written with an explicit recursion bound
so that they compute by structural recursion: `_heapify` moves strictly
toward larger indices bounded by the array length, and the sift-up loop of
`changeKey` moves strictly toward index `0`, so `h.length` respectively
the starting index always suffice as bounds and the bounded functions
agree with the JS loops.
-/

namespace Heap

variable {α : Type} [Inhabited α]

/-- `Math.floor((index - 1) / 2)`, the parent index; the JS code only reads
it while `index > 0`, where `Nat` truncation agrees with `Math.floor`. -/
def parentIdx (i : Nat) : Nat := (i - 1) / 2

/-- The index called `largest` in `_heapify` after the two child checks:
first the left child is compared against `index`, then the right child is
compared against the winner of the first check. -/
def largestIdx (cmp : α → α → Int) (h : List α) (index : Nat) : Nat :=
  let left := 2 * index + 1
  let right := 2 * index + 2
  let l1 := if left < h.length ∧ 0 < cmp h[left]! h[index]! then left else index
  if right < h.length ∧ 0 < cmp h[right]! h[l1]! then right else l1

/-- `_heapify` with an explicit recursion bound (`fuel`): when
`largest ≠ index` the code swaps the two slots (`temp` is the value at
`index` read before the writes) and recurses at `largest`. -/
def heapifyF (cmp : α → α → Int) : Nat → List α → Nat → List α
  | 0, h, _ => h
  | fuel + 1, h, index =>
    let lg := largestIdx cmp h index
    if lg = index then h
    else heapifyF cmp fuel ((h.set index h[lg]!).set lg h[index]!) lg

/-- `_heapify`: the recursion index strictly increases and stays below the
(unchanged) length, so `h.length` steps always suffice. -/
def heapify (cmp : α → α → Int) (h : List α) (index : Nat) : List α :=
  heapifyF cmp h.length h index

/-- The `while` loop of `changeKey` with an explicit bound: while
`index > 0` and `cmp(elem, heap[parent]) > 0`, the parent value is moved
down to `index` and `elem` (always the value currently at `index`) is
moved to the parent slot, then `index` becomes the parent. Returns the
final state together with the final `index`. -/
def siftUpF (cmp : α → α → Int) : Nat → List α → Nat → List α × Nat
  | 0, h, i => (h, i)
  | fuel + 1, h, i =>
    if 0 < i ∧ 0 < cmp h[i]! h[parentIdx i]! then
      siftUpF cmp fuel ((h.set (parentIdx i) h[i]!).set i h[parentIdx i]!) (parentIdx i)
    else (h, i)

/-- The sift-up loop of `changeKey`: the index strictly decreases, so the
starting index bounds the number of iterations. -/
def siftUp (cmp : α → α → Int) (h : List α) (i : Nat) : List α × Nat :=
  siftUpF cmp i h i

/-- `changeKey(index, value)`: overwrite slot `index`, sift the new value
up, then `_heapify` at the index reached by the upward pass; that index is
returned. The claims only exercise in-range indices, where `List.set`
agrees with the JS assignment. -/
def changeKey (cmp : α → α → Int) (h : List α) (index : Nat) (value : α) :
    List α × Nat :=
  let h1 := h.set index value
  let r := siftUp cmp h1 index
  (heapify cmp r.1 r.2, r.2)

/-- `Array.prototype.indexOf`: index of the first element equal to `node`,
`none` standing for the JS result `-1`. -/
def idxOf [DecidableEq α] (node : α) : List α → Option Nat
  | [] => none
  | x :: xs => if x = node then some 0 else (idxOf node xs).map (fun n => n + 1)

/-- `update(node)`: locate `node` with `indexOf`; if found, delegate to
`changeKey` at the found index with the same value, otherwise do nothing. -/
def update [DecidableEq α] (cmp : α → α → Int) (h : List α) (node : α) : List α :=
  match idxOf node h with
  | some i => (changeKey cmp h i node).1
  | none => h

/-- `add(value)`: push `value` at the end, then `changeKey` at the last
index (`length - 1` after the push) with that value. -/
def add (cmp : α → α → Int) (h : List α) (value : α) : List α × Nat :=
  changeKey cmp (h ++ [value]) ((h ++ [value]).length - 1) value

/-- `top()`: the element at position `0`; `none` models the JS result
`undefined` on an empty heap. -/
def top (h : List α) : Option α := h[0]?

/-- `extract()`: `none` models the `EmptyHeap` throw, raised before any
mutation. Otherwise the root is captured, the last element is popped, and
if elements remain it is placed at position `0` and `_heapify(0)` runs. -/
def extract (cmp : α → α → Int) (h : List α) : Option (α × List α) :=
  if h.length = 0 then none
  else
    let extr := h[0]!
    let last := h[h.length - 1]!
    let rest := h.dropLast
    if 0 < rest.length then some (extr, heapify cmp (rest.set 0 last) 0)
    else some (extr, rest)

/-- `isEmpty()`: `length === 0`. -/
def isEmpty (h : List α) : Bool := h.length == 0

/-- The default comparator `function (a, b) { return a - b; }` used when
the constructor receives no comparison function. -/
def intCmp (a b : Int) : Int := a - b

/-- The heap-property invariant: no element outranks its parent under the
comparator, i.e. `cmp(elements[i], elements[parent(i)]) <= 0` for every
index `0 < i < length`. -/
def IsHeap (cmp : α → α → Int) (h : List α) : Prop :=
  ∀ k, 0 < k → k < h.length → cmp h[k]! h[parentIdx k]! ≤ 0

/-- The comparator consistency the spec assumes ("strict, consistent total
order"): of any two elements, at least one does not outrank the other. -/
def CmpTotal (cmp : α → α → Int) : Prop := ∀ a b, cmp a b ≤ 0 ∨ cmp b a ≤ 0

/-- Transitivity of the "does not outrank" relation induced by the
comparator. -/
def CmpTrans (cmp : α → α → Int) : Prop :=
  ∀ a b c, cmp a b ≤ 0 → cmp b c ≤ 0 → cmp a c ≤ 0

/-- The heap property for every parent-child pair whose parent is not `j`:
the precondition of `_heapify(j)` (the subtrees are valid heaps, and the
node at `j` still sits correctly under its own parent). -/
def PairsExcept (cmp : α → α → Int) (h : List α) (j : Nat) : Prop :=
  ∀ k, 0 < k → k < h.length → parentIdx k ≠ j → cmp h[k]! h[parentIdx k]! ≤ 0

/-- Every child of `j` sits correctly under `j`'s parent: the other half
of the `_heapify(j)` precondition, used when a swap promotes a child of
`j` into position `j`. -/
def GrandOk (cmp : α → α → Int) (h : List α) (j : Nat) : Prop :=
  ∀ k, k < h.length → parentIdx k = j → 0 < j → cmp h[k]! h[parentIdx j]! ≤ 0

/-- Invariant of the sift-up loop at position `i`: every parent-child pair
not touching `i` satisfies the heap property. -/
def UpA (cmp : α → α → Int) (h : List α) (i : Nat) : Prop :=
  ∀ k, 0 < k → k < h.length → k ≠ i → parentIdx k ≠ i →
    cmp h[k]! h[parentIdx k]! ≤ 0

/-- Every child of `i` sits correctly under the value at `i`. -/
def ChildOk (cmp : α → α → Int) (h : List α) (i : Nat) : Prop :=
  ∀ k, 0 < k → k < h.length → parentIdx k = i → cmp h[k]! h[i]! ≤ 0

instance isHeapDecidable (cmp : α → α → Int) (h : List α) :
    Decidable (IsHeap cmp h) :=
  decidable_of_iff (∀ k, (_ : k < h.length) → 0 < k → cmp h[k]! h[parentIdx k]! ≤ 0)
    ⟨fun H k h0 hk => H k hk h0, fun H k hk h0 => H k h0 hk⟩

/-- States reachable from the empty heap by the public mutating operations
(`add`, successful `extract`, in-range `changeKey`, `update`). -/
inductive Reachable [DecidableEq α] (cmp : α → α → Int) : List α → Prop where
  | empty : Reachable cmp []
  | add : ∀ {h : List α} (v : α), Reachable cmp h → Reachable cmp (Heap.add cmp h v).1
  | extract : ∀ {h : List α} {x : α} {h2 : List α}, Reachable cmp h →
      Heap.extract cmp h = some (x, h2) → Reachable cmp h2
  | changeKey : ∀ {h : List α} (i : Nat) (v : α), Reachable cmp h →
      i < h.length → Reachable cmp (Heap.changeKey cmp h i v).1
  | update : ∀ {h : List α} (node : α), Reachable cmp h →
      Reachable cmp (Heap.update cmp h node)

/-- One client-visible operation, used to state the size law. -/
inductive Op (α : Type) where
  | add (v : α)
  | extract

/-- Run a sequence of operations, threading the heap state; a failing
`extract` (empty heap) aborts the run. -/
def runOps (cmp : α → α → Int) : List (Op α) → List α → Option (List α)
  | [], h => some h
  | Op.add v :: rest, h => runOps cmp rest (Heap.add cmp h v).1
  | Op.extract :: rest, h =>
    match Heap.extract cmp h with
    | some r => runOps cmp rest r.2
    | none => none

/-- Number of `add` operations in a sequence. -/
def countAdds : List (Op α) → Nat
  | [] => 0
  | Op.add _ :: rest => countAdds rest + 1
  | Op.extract :: rest => countAdds rest

/-- Number of `extract` operations in a sequence. -/
def countExtracts : List (Op α) → Nat
  | [] => 0
  | Op.add _ :: rest => countExtracts rest
  | Op.extract :: rest => countExtracts rest + 1

/-- Repeatedly `extract`, collecting the returned roots (at most `n`). -/
def drain (cmp : α → α → Int) : Nat → List α → List α
  | 0, _ => []
  | n + 1, h =>
    match Heap.extract cmp h with
    | some r => r.1 :: drain cmp n r.2
    | none => []

/-- Insert the values of a list in order, starting from a given heap. -/
def addAll (cmp : α → α → Int) (h : List α) : List α → List α
  | [] => h
  | v :: vs => addAll cmp (Heap.add cmp h v).1 vs

/-! ### Basic index and lookup lemmas -/

theorem parentIdx_lt (k : Nat) (h0 : 0 < k) : parentIdx k < k := by
  unfold parentIdx; omega

theorem parentIdx_eq_iff (k j : Nat) (h0 : 0 < k) :
    parentIdx k = j ↔ k = 2 * j + 1 ∨ k = 2 * j + 2 := by
  unfold parentIdx; omega

theorem parentIdx_left (j : Nat) : parentIdx (2 * j + 1) = j := by
  unfold parentIdx; omega

theorem parentIdx_right (j : Nat) : parentIdx (2 * j + 2) = j := by
  unfold parentIdx; omega

theorem getE_set_self (l : List α) (i : Nat) (v : α) (hi : i < l.length) :
    (l.set i v)[i]! = v := by
  rw [getElem!_pos (l.set i v) i (by simpa using hi)]
  simp

theorem getE_set_other (l : List α) (i j : Nat) (v : α) (hij : i ≠ j) :
    (l.set i v)[j]! = l[j]! := by
  by_cases hj : j < l.length
  · rw [getElem!_pos (l.set i v) j (by simpa using hj), getElem!_pos l j hj]
    exact List.getElem_set_ne hij _
  · rw [getElem!_neg (l.set i v) j (by simpa using hj), getElem!_neg l j hj]

theorem getE_cons_zero (x : α) (l : List α) : (x :: l)[0]! = x := by
  rw [getElem!_pos (x :: l) 0 (by simp)]
  simp

theorem getE_cons_succ (x : α) (l : List α) (k : Nat) :
    (x :: l)[k + 1]! = l[k]! := by
  by_cases hk : k < l.length
  · rw [getElem!_pos (x :: l) (k + 1) (by simpa using hk), getElem!_pos l k hk]
    simp
  · rw [getElem!_neg (x :: l) (k + 1) (by simpa using hk), getElem!_neg l k hk]

theorem getE_append_left (l : List α) (v : α) (k : Nat) (hk : k < l.length) :
    (l ++ [v])[k]! = l[k]! := by
  rw [getElem!_pos (l ++ [v]) k (by simp; omega), getElem!_pos l k hk]
  exact List.getElem_append_left _

theorem getE_append_last (l : List α) (v : α) : (l ++ [v])[l.length]! = v := by
  rw [getElem!_pos (l ++ [v]) l.length (by simp)]
  simp

theorem getE_dropLast (l : List α) (k : Nat) (hk : k < l.length - 1) :
    l.dropLast[k]! = l[k]! := by
  rw [getElem!_pos l.dropLast k (by simpa using hk),
    getElem!_pos l k (by omega)]
  exact List.getElem_dropLast l k _

theorem getE_mem (l : List α) (k : Nat) (hk : k < l.length) : l[k]! ∈ l := by
  rw [getElem!_pos l k hk]
  exact List.getElem_mem hk

theorem set_get_self : ∀ (l : List α) (i : Nat), i < l.length →
    l.set i l[i]! = l := by
  intro l
  induction l with
  | nil => intro i hi; simp at hi
  | cons x t ih =>
    intro i hi
    cases i with
    | zero => rw [getE_cons_zero]; rfl
    | succ n =>
      rw [getE_cons_succ]
      have := ih n (by simpa using hi)
      simp [List.set, this]

/-! ### Comparator helpers -/

theorem cmp_refl (cmp : α → α → Int) (htot : CmpTotal cmp) (a : α) :
    cmp a a ≤ 0 := (htot a a).elim id id

theorem cmp_flip (cmp : α → α → Int) (htot : CmpTotal cmp) {a b : α}
    (hab : 0 < cmp a b) : cmp b a ≤ 0 := by
  rcases htot a b with hc | hc
  · omega
  · exact hc

theorem intCmp_total : CmpTotal intCmp := by
  intro a b; unfold intCmp; omega

theorem intCmp_trans : CmpTrans intCmp := by
  intro a b c; unfold intCmp; omega

/-! ### Case analysis of the child selection in `_heapify` -/

theorem largestIdx_ne_bounds (cmp : α → α → Int) (h : List α) (i : Nat)
    (hne : largestIdx cmp h i ≠ i) :
    i < largestIdx cmp h i ∧ largestIdx cmp h i < h.length := by
  unfold largestIdx at hne ⊢
  dsimp only at hne ⊢
  by_cases hl : 2 * i + 1 < h.length ∧ 0 < cmp h[2 * i + 1]! h[i]!
  · rw [if_pos hl] at hne ⊢
    by_cases hr : 2 * i + 2 < h.length ∧ 0 < cmp h[2 * i + 2]! h[2 * i + 1]!
    · rw [if_pos hr]; exact ⟨by omega, hr.1⟩
    · rw [if_neg hr]; exact ⟨by omega, hl.1⟩
  · rw [if_neg hl] at hne ⊢
    by_cases hr : 2 * i + 2 < h.length ∧ 0 < cmp h[2 * i + 2]! h[i]!
    · rw [if_pos hr]; exact ⟨by omega, hr.1⟩
    · rw [if_neg hr] at hne; exact absurd rfl hne

theorem largestIdx_spec (cmp : α → α → Int) (htot : CmpTotal cmp)
    (htrans : CmpTrans cmp) (h : List α) (i : Nat) :
    largestIdx cmp h i = i ∨
    ((largestIdx cmp h i = 2 * i + 1 ∨ largestIdx cmp h i = 2 * i + 2) ∧
      largestIdx cmp h i < h.length ∧ cmp h[i]! h[largestIdx cmp h i]! ≤ 0) := by
  unfold largestIdx
  dsimp only
  by_cases hl : 2 * i + 1 < h.length ∧ 0 < cmp h[2 * i + 1]! h[i]!
  · rw [if_pos hl]
    by_cases hr : 2 * i + 2 < h.length ∧ 0 < cmp h[2 * i + 2]! h[2 * i + 1]!
    · rw [if_pos hr]
      right
      refine ⟨Or.inr rfl, hr.1, ?_⟩
      rcases htot h[i]! h[2 * i + 2]! with hc | hc
      · exact hc
      · have h2 : cmp h[i]! h[2 * i + 1]! ≤ 0 := cmp_flip cmp htot hl.2
        have := htrans _ _ _ hc h2
        omega
    · rw [if_neg hr]
      exact Or.inr ⟨Or.inl rfl, hl.1, cmp_flip cmp htot hl.2⟩
  · rw [if_neg hl]
    by_cases hr : 2 * i + 2 < h.length ∧ 0 < cmp h[2 * i + 2]! h[i]!
    · rw [if_pos hr]
      exact Or.inr ⟨Or.inr rfl, hr.1, cmp_flip cmp htot hr.2⟩
    · rw [if_neg hr]
      exact Or.inl rfl

theorem largestIdx_left_le (cmp : α → α → Int) (htot : CmpTotal cmp)
    (htrans : CmpTrans cmp) (h : List α) (i : Nat)
    (hlen : 2 * i + 1 < h.length) (hne : largestIdx cmp h i ≠ i) :
    cmp h[2 * i + 1]! h[largestIdx cmp h i]! ≤ 0 := by
  unfold largestIdx at hne ⊢
  dsimp only at hne ⊢
  by_cases hl : 2 * i + 1 < h.length ∧ 0 < cmp h[2 * i + 1]! h[i]!
  · rw [if_pos hl] at hne ⊢
    by_cases hr : 2 * i + 2 < h.length ∧ 0 < cmp h[2 * i + 2]! h[2 * i + 1]!
    · rw [if_pos hr]; exact cmp_flip cmp htot hr.2
    · rw [if_neg hr]; exact cmp_refl cmp htot _
  · rw [if_neg hl] at hne ⊢
    have hl2 : cmp h[2 * i + 1]! h[i]! ≤ 0 := by
      rcases Int.lt_or_le 0 (cmp h[2 * i + 1]! h[i]!) with hc | hc
      · exact absurd ⟨hlen, hc⟩ hl
      · exact hc
    by_cases hr : 2 * i + 2 < h.length ∧ 0 < cmp h[2 * i + 2]! h[i]!
    · rw [if_pos hr]
      exact htrans _ _ _ hl2 (cmp_flip cmp htot hr.2)
    · rw [if_neg hr] at hne; exact absurd rfl hne

theorem largestIdx_right_le (cmp : α → α → Int) (htot : CmpTotal cmp)
    (h : List α) (i : Nat)
    (hlen : 2 * i + 2 < h.length) (hne : largestIdx cmp h i ≠ i) :
    cmp h[2 * i + 2]! h[largestIdx cmp h i]! ≤ 0 := by
  unfold largestIdx at hne ⊢
  dsimp only at hne ⊢
  by_cases hl : 2 * i + 1 < h.length ∧ 0 < cmp h[2 * i + 1]! h[i]!
  · rw [if_pos hl] at hne ⊢
    by_cases hr : 2 * i + 2 < h.length ∧ 0 < cmp h[2 * i + 2]! h[2 * i + 1]!
    · rw [if_pos hr]; exact cmp_refl cmp htot _
    · rw [if_neg hr]
      rcases Int.lt_or_le 0 (cmp h[2 * i + 2]! h[2 * i + 1]!) with hc | hc
      · exact absurd ⟨hlen, hc⟩ hr
      · exact hc
  · rw [if_neg hl] at hne ⊢
    by_cases hr : 2 * i + 2 < h.length ∧ 0 < cmp h[2 * i + 2]! h[i]!
    · rw [if_pos hr]; exact cmp_refl cmp htot _
    · rw [if_neg hr] at hne; exact absurd rfl hne

theorem largestIdx_eq_self (cmp : α → α → Int) (h : List α) (i : Nat)
    (heq : largestIdx cmp h i = i) :
    (2 * i + 1 < h.length → cmp h[2 * i + 1]! h[i]! ≤ 0) ∧
    (2 * i + 2 < h.length → cmp h[2 * i + 2]! h[i]! ≤ 0) := by
  unfold largestIdx at heq
  dsimp only at heq
  by_cases hl : 2 * i + 1 < h.length ∧ 0 < cmp h[2 * i + 1]! h[i]!
  · rw [if_pos hl] at heq
    by_cases hr : 2 * i + 2 < h.length ∧ 0 < cmp h[2 * i + 2]! h[2 * i + 1]!
    · rw [if_pos hr] at heq; omega
    · rw [if_neg hr] at heq; omega
  · rw [if_neg hl] at heq
    by_cases hr : 2 * i + 2 < h.length ∧ 0 < cmp h[2 * i + 2]! h[i]!
    · rw [if_pos hr] at heq; omega
    · constructor
      · intro hlen
        rcases Int.lt_or_le 0 (cmp h[2 * i + 1]! h[i]!) with hc | hc
        · exact absurd ⟨hlen, hc⟩ hl
        · exact hc
      · intro hlen
        rcases Int.lt_or_le 0 (cmp h[2 * i + 2]! h[i]!) with hc | hc
        · exact absurd ⟨hlen, hc⟩ hr
        · exact hc

/-! ### `_heapify` lemmas -/

theorem length_heapifyF (cmp : α → α → Int) :
    ∀ (fuel : Nat) (h : List α) (i : Nat),
      (heapifyF cmp fuel h i).length = h.length := by
  intro fuel
  induction fuel with
  | zero => intro h i; rfl
  | succ n ih =>
    intro h i
    rw [heapifyF]
    split
    · rfl
    · rw [ih]; simp

theorem heapifyF_of_isHeap (cmp : α → α → Int) :
    ∀ (fuel : Nat) (h : List α) (j : Nat), IsHeap cmp h →
      heapifyF cmp fuel h j = h := by
  intro fuel
  cases fuel with
  | zero => intro h j _; rfl
  | succ n =>
    intro h j hh
    rw [heapifyF]
    have hlg : largestIdx cmp h j = j := by
      by_contra hne
      have hb := largestIdx_ne_bounds cmp h j hne
      unfold largestIdx at hne
      dsimp only at hne
      by_cases hl : 2 * j + 1 < h.length ∧ 0 < cmp h[2 * j + 1]! h[j]!
      · have := hh (2 * j + 1) (by omega) hl.1
        rw [parentIdx_left] at this
        omega
      · rw [if_neg hl] at hne
        by_cases hr : 2 * j + 2 < h.length ∧ 0 < cmp h[2 * j + 2]! h[j]!
        · have := hh (2 * j + 2) (by omega) hr.1
          rw [parentIdx_right] at this
          omega
        · rw [if_neg hr] at hne; exact absurd rfl hne
    rw [if_pos hlg]

theorem cons_set_perm : ∀ (l : List α) (k : Nat) (a b : α), l[k]? = some a →
    (a :: l.set k b).Perm (b :: l) := by
  intro l
  induction l with
  | nil => intro k a b hk; simp at hk
  | cons x t ih =>
    intro k a b hk
    cases k with
    | zero =>
      simp at hk
      subst hk
      exact List.Perm.swap b x t
    | succ n =>
      simp only [List.getElem?_cons_succ] at hk
      exact ((List.Perm.swap x a _).trans ((ih n a b hk).cons x)).trans
        (List.Perm.swap b x t)

theorem set_swap_perm : ∀ (l : List α) (i j : Nat) (a b : α),
    l[i]? = some a → l[j]? = some b → ((l.set i b).set j a).Perm l := by
  intro l
  induction l with
  | nil => intro i j a b hi _; simp at hi
  | cons x t ih =>
    intro i j a b hi hj
    cases i with
    | zero =>
      simp at hi
      subst hi
      cases j with
      | zero => simp at hj; subst hj; simp
      | succ m =>
        simp only [List.getElem?_cons_succ] at hj
        simpa using cons_set_perm t m b x hj
    | succ n =>
      simp only [List.getElem?_cons_succ] at hi
      cases j with
      | zero =>
        simp at hj
        subst hj
        simpa using cons_set_perm t n a x hi
      | succ m =>
        simp only [List.getElem?_cons_succ] at hj
        simpa using (ih n m a b hi hj).cons x

theorem heapifyF_perm (cmp : α → α → Int) :
    ∀ (fuel : Nat) (h : List α) (i : Nat),
      (heapifyF cmp fuel h i).Perm h := by
  intro fuel
  induction fuel with
  | zero => intro h i; exact List.Perm.refl h
  | succ n ih =>
    intro h i
    rw [heapifyF]
    by_cases hlg : largestIdx cmp h i = i
    · rw [if_pos hlg]
    · rw [if_neg hlg]
      have hb := largestIdx_ne_bounds cmp h i hlg
      refine (ih _ _).trans (set_swap_perm h i (largestIdx cmp h i) _ _ ?_ ?_)
      · rw [getElem!_pos h i (by omega)]
        exact List.getElem?_eq_getElem _
      · rw [getElem!_pos h (largestIdx cmp h i) (by omega)]
        exact List.getElem?_eq_getElem _

theorem heapifyF_isHeap (cmp : α → α → Int) (htot : CmpTotal cmp)
    (htrans : CmpTrans cmp) :
    ∀ (fuel : Nat) (h : List α) (j : Nat), h.length ≤ fuel + j →
      PairsExcept cmp h j → GrandOk cmp h j →
      IsHeap cmp (heapifyF cmp fuel h j) := by
  intro fuel
  induction fuel with
  | zero =>
    intro h j hfuel hP1 hP2
    show IsHeap cmp h
    intro k h0 hk
    refine hP1 k h0 hk ?_
    have := parentIdx_lt k h0
    omega
  | succ n ih =>
    intro h j hfuel hP1 hP2
    rw [heapifyF]
    by_cases hlg : largestIdx cmp h j = j
    · rw [if_pos hlg]
      intro k h0 hk
      by_cases hpk : parentIdx k = j
      · have hkch := (parentIdx_eq_iff k j h0).1 hpk
        have hF4 := largestIdx_eq_self cmp h j hlg
        rw [hpk]
        rcases hkch with hc | hc
        · subst hc; exact hF4.1 hk
        · subst hc; exact hF4.2 hk
      · exact hP1 k h0 hk hpk
    · rw [if_neg hlg]
      rcases largestIdx_spec cmp htot htrans h j with heq | ⟨hch, hlen, hle⟩
      · exact absurd heq hlg
      have hjlg : j < largestIdx cmp h j := by rcases hch with hc | hc <;> omega
      have hplg : parentIdx (largestIdx cmp h j) = j := by
        rcases hch with hc | hc
        · rw [hc]; exact parentIdx_left j
        · rw [hc]; exact parentIdx_right j
      set lg := largestIdx cmp h j with hLG
      have hlen' : ((h.set j h[lg]!).set lg h[j]!).length = h.length := by simp
      have hgl : ((h.set j h[lg]!).set lg h[j]!)[lg]! = h[j]! :=
        getE_set_self _ lg _ (by simpa using hlen)
      have hgj : ((h.set j h[lg]!).set lg h[j]!)[j]! = h[lg]! := by
        rw [getE_set_other _ lg j _ (by omega), getE_set_self _ j _ (by omega)]
      have hgo : ∀ x, x ≠ j → x ≠ lg →
          ((h.set j h[lg]!).set lg h[j]!)[x]! = h[x]! := by
        intro x hxj hxlg
        rw [getE_set_other _ lg x _ (fun hh => hxlg hh.symm),
          getE_set_other _ j x _ (fun hh => hxj hh.symm)]
      apply ih
      · rw [hlen']; omega
      · -- the swapped state satisfies `PairsExcept` at `lg`
        intro k h0 hk hpk
        rw [hlen'] at hk
        by_cases hkl : k = lg
        · subst hkl
          rw [hplg, hgl, hgj]
          exact hle
        by_cases hkj : k = j
        · subst hkj
          rw [hgj, hgo (parentIdx k) (by have := parentIdx_lt k h0; omega)
            (by have := parentIdx_lt k h0; omega)]
          exact hP2 lg hlen hplg h0
        by_cases hpkj : parentIdx k = j
        · rw [hpkj, hgo k hkj hkl, hgj]
          have hkch := (parentIdx_eq_iff k j h0).1 hpkj
          rcases hkch with hc | hc
          · subst hc
            exact largestIdx_left_le cmp htot htrans h j hk hlg
          · subst hc
            exact largestIdx_right_le cmp htot h j hk hlg
        · rw [hgo k hkj hkl, hgo (parentIdx k) hpkj hpk]
          exact hP1 k h0 hk hpkj
      · -- the swapped state satisfies `GrandOk` at `lg`
        intro k hk hpk h0lg
        rw [hlen'] at hk
        have h0k : 0 < k := by
          rcases Nat.eq_zero_or_pos k with h0 | h0
          · subst h0; unfold parentIdx at hpk; omega
          · exact h0
        have hklg : lg < k := by have := parentIdx_lt k h0k; omega
        rw [hplg, hgj, hgo k (by omega) (by omega)]
        have := hP1 k h0k hk (by omega)
        rw [hpk] at this
        exact this

/-! ### Sift-up loop lemmas -/

theorem length_siftUpF (cmp : α → α → Int) :
    ∀ (fuel : Nat) (h : List α) (i : Nat),
      (siftUpF cmp fuel h i).1.length = h.length := by
  intro fuel
  induction fuel with
  | zero => intro h i; rfl
  | succ n ih =>
    intro h i
    rw [siftUpF]
    split
    · rw [ih]; simp
    · rfl

theorem siftUpF_get (cmp : α → α → Int) :
    ∀ (fuel : Nat) (h : List α) (i : Nat), i < h.length →
      (siftUpF cmp fuel h i).2 ≤ i ∧ (siftUpF cmp fuel h i).2 < h.length ∧
      (siftUpF cmp fuel h i).1[(siftUpF cmp fuel h i).2]! = h[i]! := by
  intro fuel
  induction fuel with
  | zero => intro h i hi; exact ⟨Nat.le_refl i, hi, rfl⟩
  | succ n ih =>
    intro h i hi
    rw [siftUpF]
    split
    case isTrue hg =>
      have hp := parentIdx_lt i hg.1
      have hlen2 : ((h.set (parentIdx i) h[i]!).set i h[parentIdx i]!).length
          = h.length := by simp
      have := ih ((h.set (parentIdx i) h[i]!).set i h[parentIdx i]!)
        (parentIdx i) (by omega)
      rw [hlen2] at this
      refine ⟨by omega, this.2.1, ?_⟩
      rw [this.2.2, getE_set_other _ i (parentIdx i) _ (by omega),
        getE_set_self _ (parentIdx i) _ (by omega)]
    case isFalse hg => exact ⟨Nat.le_refl i, hi, rfl⟩

theorem siftUpF_perm (cmp : α → α → Int) :
    ∀ (fuel : Nat) (h : List α) (i : Nat), i < h.length →
      ((siftUpF cmp fuel h i).1).Perm h := by
  intro fuel
  induction fuel with
  | zero => intro h i _; exact List.Perm.refl h
  | succ n ih =>
    intro h i hi
    rw [siftUpF]
    split
    case isTrue hg =>
      have hp := parentIdx_lt i hg.1
      have hlen2 : ((h.set (parentIdx i) h[i]!).set i h[parentIdx i]!).length
          = h.length := by simp
      refine (ih _ (parentIdx i) (by omega)).trans ?_
      refine set_swap_perm h (parentIdx i) i _ _ ?_ ?_
      · rw [getElem!_pos h (parentIdx i) (by omega)]
        exact List.getElem?_eq_getElem _
      · rw [getElem!_pos h i hi]
        exact List.getElem?_eq_getElem _
    case isFalse hg => exact List.Perm.refl h

/-- One iteration of the sift-up loop preserves the `UpA` invariant, now at
the parent position. -/
theorem upStep_UpA (cmp : α → α → Int) (h : List α) (i : Nat)
    (hi : i < h.length) (h0 : 0 < i)
    (hA : UpA cmp h i) (hB : GrandOk cmp h i) :
    UpA cmp ((h.set (parentIdx i) h[i]!).set i h[parentIdx i]!) (parentIdx i) := by
  have hp := parentIdx_lt i h0
  have hgi : ((h.set (parentIdx i) h[i]!).set i h[parentIdx i]!)[i]!
      = h[parentIdx i]! := getE_set_self _ i _ (by simpa using hi)
  have hgp : ((h.set (parentIdx i) h[i]!).set i h[parentIdx i]!)[parentIdx i]!
      = h[i]! := by
    rw [getE_set_other _ i (parentIdx i) _ (by omega),
      getE_set_self _ (parentIdx i) _ (by omega)]
  have hgo : ∀ x, x ≠ i → x ≠ parentIdx i →
      ((h.set (parentIdx i) h[i]!).set i h[parentIdx i]!)[x]! = h[x]! := by
    intro x hxi hxp
    rw [getE_set_other _ i x _ (fun hh => hxi hh.symm),
      getE_set_other _ (parentIdx i) x _ (fun hh => hxp hh.symm)]
  intro k h0k hk hki hpki
  rw [List.length_set, List.length_set] at hk
  by_cases hkii : k = i
  · subst hkii
    exact absurd rfl hpki
  by_cases hpkI : parentIdx k = i
  · -- a child of `i` now sits under the old parent value
    rw [hpkI, hgi, hgo k hkii (by have := parentIdx_lt k h0k; omega)]
    exact hB k hk hpkI h0
  · -- untouched pair
    rw [hgo k hkii hki, hgo (parentIdx k) hpkI hpki]
    exact hA k h0k hk hkii hpkI

/-- One iteration of the sift-up loop establishes `GrandOk` at the parent
position. -/
theorem upStep_GrandOk (cmp : α → α → Int) (htrans : CmpTrans cmp)
    (h : List α) (i : Nat) (hi : i < h.length) (h0 : 0 < i)
    (hA : UpA cmp h i) :
    GrandOk cmp ((h.set (parentIdx i) h[i]!).set i h[parentIdx i]!)
      (parentIdx i) := by
  have hp := parentIdx_lt i h0
  have hgi : ((h.set (parentIdx i) h[i]!).set i h[parentIdx i]!)[i]!
      = h[parentIdx i]! := getE_set_self _ i _ (by simpa using hi)
  have hgo : ∀ x, x ≠ i → x ≠ parentIdx i →
      ((h.set (parentIdx i) h[i]!).set i h[parentIdx i]!)[x]! = h[x]! := by
    intro x hxi hxp
    rw [getE_set_other _ i x _ (fun hh => hxi hh.symm),
      getE_set_other _ (parentIdx i) x _ (fun hh => hxp hh.symm)]
  intro k hk hpk h0p
  rw [List.length_set, List.length_set] at hk
  have hpp := parentIdx_lt (parentIdx i) h0p
  have hgg := hgo (parentIdx (parentIdx i)) (by omega) (by omega)
  have hpar : cmp h[parentIdx i]! h[parentIdx (parentIdx i)]! ≤ 0 :=
    hA (parentIdx i) h0p (by omega) (by omega) (by omega)
  by_cases hki : k = i
  · subst hki
    rw [hgi, hgg]
    exact hpar
  · have h0k : 0 < k := by
      rcases Nat.eq_zero_or_pos k with hz | hz
      · subst hz
        rw [show parentIdx 0 = 0 from rfl] at hpk
        omega
      · exact hz
    have hkp : parentIdx i < k := by have := parentIdx_lt k h0k; omega
    rw [hgg, hgo k hki (by omega)]
    refine htrans _ _ _ ?_ hpar
    have := hA k h0k hk hki (by omega)
    rw [hpk] at this
    exact this

/-- One iteration of the sift-up loop establishes `ChildOk` at the parent
position: the element that moved up outranks both of its new children. -/
theorem upStep_ChildOk (cmp : α → α → Int) (htot : CmpTotal cmp)
    (htrans : CmpTrans cmp) (h : List α) (i : Nat) (hi : i < h.length)
    (h0 : 0 < i) (hcmp : 0 < cmp h[i]! h[parentIdx i]!)
    (hA : UpA cmp h i) :
    ChildOk cmp ((h.set (parentIdx i) h[i]!).set i h[parentIdx i]!)
      (parentIdx i) := by
  have hp := parentIdx_lt i h0
  have hgi : ((h.set (parentIdx i) h[i]!).set i h[parentIdx i]!)[i]!
      = h[parentIdx i]! := getE_set_self _ i _ (by simpa using hi)
  have hgp : ((h.set (parentIdx i) h[i]!).set i h[parentIdx i]!)[parentIdx i]!
      = h[i]! := by
    rw [getE_set_other _ i (parentIdx i) _ (by omega),
      getE_set_self _ (parentIdx i) _ (by omega)]
  have hgo : ∀ x, x ≠ i → x ≠ parentIdx i →
      ((h.set (parentIdx i) h[i]!).set i h[parentIdx i]!)[x]! = h[x]! := by
    intro x hxi hxp
    rw [getE_set_other _ i x _ (fun hh => hxi hh.symm),
      getE_set_other _ (parentIdx i) x _ (fun hh => hxp hh.symm)]
  have hflip : cmp h[parentIdx i]! h[i]! ≤ 0 := cmp_flip cmp htot hcmp
  intro k h0k hk hpk
  rw [List.length_set, List.length_set] at hk
  rw [hgp]
  by_cases hki : k = i
  · subst hki
    rw [hgi]
    exact hflip
  · have hkp : parentIdx i < k := by have := parentIdx_lt k h0k; omega
    rw [hgo k hki (by omega)]
    refine htrans _ _ _ ?_ hflip
    have := hA k h0k hk hki (by omega)
    rw [hpk] at this
    exact this

/-- At loop exit the sift-up result satisfies the `_heapify` precondition
at the reached index. -/
theorem siftUpF_spec (cmp : α → α → Int) (htrans : CmpTrans cmp) :
    ∀ (fuel : Nat) (h : List α) (i : Nat), i ≤ fuel → i < h.length →
      UpA cmp h i → GrandOk cmp h i →
      PairsExcept cmp (siftUpF cmp fuel h i).1 (siftUpF cmp fuel h i).2 ∧
      GrandOk cmp (siftUpF cmp fuel h i).1 (siftUpF cmp fuel h i).2 := by
  intro fuel
  induction fuel with
  | zero =>
    intro h i hif hi hA hB
    have hi0 : i = 0 := by omega
    subst hi0
    refine ⟨?_, hB⟩
    intro k h0 hk hpk
    exact hA k h0 hk (by omega) hpk
  | succ n ih =>
    intro h i hif hi hA hB
    rw [siftUpF]
    split
    case isTrue hg =>
      have hp := parentIdx_lt i hg.1
      apply ih
      · omega
      · simp; omega
      · exact upStep_UpA cmp h i hi hg.1 hA hB
      · exact upStep_GrandOk cmp htrans h i hi hg.1 hA
    case isFalse hg =>
      show PairsExcept cmp h i ∧ GrandOk cmp h i
      refine ⟨?_, hB⟩
      intro k h0 hk hpk
      by_cases hki : k = i
      · subst hki
        have hc : ¬ 0 < cmp h[k]! h[parentIdx k]! := fun hc => hg ⟨h0, hc⟩
        omega
      · exact hA k h0 hk hki hpk

/-- When every child of `i` already sits correctly under the new value at
`i`, the sift-up loop alone restores the full heap property. -/
theorem siftUpF_isHeap (cmp : α → α → Int) (htot : CmpTotal cmp)
    (htrans : CmpTrans cmp) :
    ∀ (fuel : Nat) (h : List α) (i : Nat), i ≤ fuel → i < h.length →
      UpA cmp h i → GrandOk cmp h i → ChildOk cmp h i →
      IsHeap cmp (siftUpF cmp fuel h i).1 := by
  intro fuel
  induction fuel with
  | zero =>
    intro h i hif hi hA hB hC
    have hi0 : i = 0 := by omega
    subst hi0
    intro k h0 hk
    by_cases hpk : parentIdx k = 0
    · rw [hpk]; exact hC k h0 hk hpk
    · exact hA k h0 hk (by omega) hpk
  | succ n ih =>
    intro h i hif hi hA hB hC
    rw [siftUpF]
    split
    case isTrue hg =>
      have hp := parentIdx_lt i hg.1
      apply ih
      · omega
      · simp; omega
      · exact upStep_UpA cmp h i hi hg.1 hA hB
      · exact upStep_GrandOk cmp htrans h i hi hg.1 hA
      · exact upStep_ChildOk cmp htot htrans h i hi hg.1 hg.2 hA
    case isFalse hg =>
      show IsHeap cmp h
      intro k h0 hk
      by_cases hki : k = i
      · subst hki
        have hc : ¬ 0 < cmp h[k]! h[parentIdx k]! := fun hc => hg ⟨h0, hc⟩
        omega
      · by_cases hpk : parentIdx k = i
        · rw [hpk]; exact hC k h0 hk hpk
        · exact hA k h0 hk hki hpk

/-- If the sift-up loop moved the element at least one step, the resulting
state is already a full heap (the trailing `_heapify` finds nothing to
do). -/
theorem siftUpF_moved_isHeap (cmp : α → α → Int) (htot : CmpTotal cmp)
    (htrans : CmpTrans cmp) :
    ∀ (fuel : Nat) (h : List α) (i : Nat), i ≤ fuel → i < h.length →
      UpA cmp h i → GrandOk cmp h i → (siftUpF cmp fuel h i).2 ≠ i →
      IsHeap cmp (siftUpF cmp fuel h i).1 := by
  intro fuel
  cases fuel with
  | zero => intro h i _ _ _ _ hne; exact absurd rfl hne
  | succ n =>
    intro h i hif hi hA hB hne
    rw [siftUpF] at hne ⊢
    by_cases hg : 0 < i ∧ 0 < cmp h[i]! h[parentIdx i]!
    · rw [if_pos hg]
      have hp := parentIdx_lt i hg.1
      apply siftUpF_isHeap cmp htot htrans n _ (parentIdx i)
      · omega
      · simp; omega
      · exact upStep_UpA cmp h i hi hg.1 hA hB
      · exact upStep_GrandOk cmp htrans h i hi hg.1 hA
      · exact upStep_ChildOk cmp htot htrans h i hi hg.1 hg.2 hA
    · rw [if_neg hg] at hne
      exact absurd rfl hne

/-! ### Operation-level lemmas -/

/-- Overwriting one in-range slot of a valid heap leaves every pair away
from that slot intact. -/
theorem set_UpA (cmp : α → α → Int) (h : List α) (i : Nat) (v : α)
    (hh : IsHeap cmp h) : UpA cmp (h.set i v) i := by
  intro k h0 hk hki hpki
  rw [List.length_set] at hk
  rw [getE_set_other _ i k _ (fun h2 => hki h2.symm),
    getE_set_other _ i (parentIdx k) _ (fun h2 => hpki h2.symm)]
  exact hh k h0 hk

/-- In a valid heap the children of `i` also sit correctly under `i`'s
parent, and overwriting slot `i` does not disturb that. -/
theorem set_GrandOk (cmp : α → α → Int) (htrans : CmpTrans cmp) (h : List α)
    (i : Nat) (v : α) (hh : IsHeap cmp h) (hi : i < h.length) :
    GrandOk cmp (h.set i v) i := by
  intro k hk hpk h0i
  rw [List.length_set] at hk
  have hp := parentIdx_lt i h0i
  have h0k : 0 < k := by
    rcases Nat.eq_zero_or_pos k with hz | hz
    · subst hz; rw [show parentIdx 0 = 0 from rfl] at hpk; omega
    · exact hz
  have hik : i < k := by have := parentIdx_lt k h0k; omega
  rw [getE_set_other _ i k _ (by omega),
    getE_set_other _ i (parentIdx i) _ (by omega)]
  refine htrans _ _ _ ?_ (hh i h0i hi)
  have := hh k h0k hk
  rw [hpk] at this
  exact this

theorem changeKey_isHeap_aux (cmp : α → α → Int) (htot : CmpTotal cmp)
    (htrans : CmpTrans cmp) (h : List α) (i : Nat) (v : α)
    (hh : IsHeap cmp h) (hi : i < h.length) :
    IsHeap cmp (changeKey cmp h i v).1 ∧
    (changeKey cmp h i v).1.length = h.length := by
  have hi1 : i < (h.set i v).length := by simpa using hi
  have hspec := siftUpF_spec cmp htrans i (h.set i v) i (Nat.le_refl i) hi1
    (set_UpA cmp h i v hh) (set_GrandOk cmp htrans h i v hh hi)
  constructor
  · show IsHeap cmp
      (heapify cmp (siftUp cmp (h.set i v) i).1 (siftUp cmp (h.set i v) i).2)
    unfold heapify
    exact heapifyF_isHeap cmp htot htrans _ _ _ (by omega) hspec.1 hspec.2
  · show (heapify cmp (siftUp cmp (h.set i v) i).1
      (siftUp cmp (h.set i v) i).2).length = h.length
    unfold heapify siftUp
    rw [length_heapifyF, length_siftUpF]
    simp

theorem changeKey_length (cmp : α → α → Int) (h : List α) (i : Nat) (v : α) :
    (changeKey cmp h i v).1.length = h.length := by
  show (heapify cmp (siftUp cmp (h.set i v) i).1
    (siftUp cmp (h.set i v) i).2).length = h.length
  unfold heapify siftUp
  rw [length_heapifyF, length_siftUpF]
  simp

theorem add_aux (cmp : α → α → Int) (htot : CmpTotal cmp)
    (htrans : CmpTrans cmp) (h : List α) (v : α) (hh : IsHeap cmp h) :
    IsHeap cmp (add cmp h v).1 ∧ (add cmp h v).1.length = h.length + 1 ∧
    (add cmp h v).2 < (add cmp h v).1.length ∧
    (add cmp h v).1[(add cmp h v).2]! = v := by
  have hE : Heap.add cmp h v = changeKey cmp (h ++ [v]) h.length v := by
    unfold add
    rw [show (h ++ [v]).length - 1 = h.length by simp]
  have hlen1 : ((h ++ [v]).set h.length v).length = h.length + 1 := by simp
  have hvn : ((h ++ [v]).set h.length v)[h.length]! = v :=
    getE_set_self _ h.length _ (by simp)
  have hvk : ∀ k, k < h.length → ((h ++ [v]).set h.length v)[k]! = h[k]! := by
    intro k hk
    rw [getE_set_other _ h.length k _ (by omega), getE_append_left _ _ _ hk]
  have hA : UpA cmp ((h ++ [v]).set h.length v) h.length := by
    intro k h0 hk hki hpki
    rw [hlen1] at hk
    have hkh : k < h.length := by omega
    have hpk := parentIdx_lt k h0
    rw [hvk k hkh, hvk (parentIdx k) (by omega)]
    exact hh k h0 hkh
  have hB : GrandOk cmp ((h ++ [v]).set h.length v) h.length := by
    intro k hk hpk h0n
    rw [hlen1] at hk
    have h0k : 0 < k := by
      rcases Nat.eq_zero_or_pos k with hz | hz
      · subst hz; rw [show parentIdx 0 = 0 from rfl] at hpk; omega
      · exact hz
    have := (parentIdx_eq_iff k h.length h0k).1 hpk
    omega
  have hC : ChildOk cmp ((h ++ [v]).set h.length v) h.length := by
    intro k h0k hk hpk
    rw [hlen1] at hk
    have := (parentIdx_eq_iff k h.length h0k).1 hpk
    omega
  have hbound : h.length < ((h ++ [v]).set h.length v).length := by
    rw [hlen1]; omega
  have hIs : IsHeap cmp (siftUpF cmp h.length ((h ++ [v]).set h.length v)
      h.length).1 :=
    siftUpF_isHeap cmp htot htrans h.length _ h.length (Nat.le_refl _)
      hbound hA hB hC
  have hget := siftUpF_get cmp h.length ((h ++ [v]).set h.length v)
    h.length hbound
  have h1E : (changeKey cmp (h ++ [v]) h.length v).1 =
      (siftUpF cmp h.length ((h ++ [v]).set h.length v) h.length).1 := by
    show (heapify cmp (siftUp cmp ((h ++ [v]).set h.length v) h.length).1
      (siftUp cmp ((h ++ [v]).set h.length v) h.length).2) = _
    unfold heapify siftUp
    exact heapifyF_of_isHeap cmp _ _ _ hIs
  have h2E : (changeKey cmp (h ++ [v]) h.length v).2 =
      (siftUpF cmp h.length ((h ++ [v]).set h.length v) h.length).2 := rfl
  rw [hE, h1E, h2E]
  rw [length_siftUpF, hlen1]
  refine ⟨hIs, rfl, by omega, ?_⟩
  rw [hget.2.2, hvn]

theorem extract_eq (cmp : α → α → Int) (h : List α) (hne : h.length ≠ 0) :
    extract cmp h = if 0 < h.dropLast.length
      then some (h[0]!, heapify cmp (h.dropLast.set 0 h[h.length - 1]!) 0)
      else some (h[0]!, h.dropLast) := by
  unfold extract
  rw [if_neg hne]

theorem extract_some (cmp : α → α → Int) (h : List α) (hne : h.length ≠ 0) :
    ∃ h2, extract cmp h = some (h[0]!, h2) ∧ h2.length = h.length - 1 := by
  rw [extract_eq cmp h hne]
  by_cases hd : 0 < h.dropLast.length
  · rw [if_pos hd]
    refine ⟨_, rfl, ?_⟩
    unfold heapify
    rw [length_heapifyF]
    simp
  · rw [if_neg hd]
    refine ⟨_, rfl, ?_⟩
    rw [List.length_dropLast]

theorem extract_aux (cmp : α → α → Int) (htot : CmpTotal cmp)
    (htrans : CmpTrans cmp) (h : List α) (hne : h.length ≠ 0)
    (hh : IsHeap cmp h) :
    ∃ h2, extract cmp h = some (h[0]!, h2) ∧ h2.length = h.length - 1 ∧
      IsHeap cmp h2 := by
  rw [extract_eq cmp h hne]
  by_cases hd : 0 < h.dropLast.length
  · rw [if_pos hd]
    rw [List.length_dropLast] at hd
    have hP1 : PairsExcept cmp (h.dropLast.set 0 h[h.length - 1]!) 0 := by
      intro k h0 hk hpk
      rw [List.length_set, List.length_dropLast] at hk
      have hpklt := parentIdx_lt k h0
      have hp0 : 0 < parentIdx k := by omega
      rw [getE_set_other _ 0 k _ (by omega), getE_dropLast _ _ hk,
        getE_set_other _ 0 (parentIdx k) _ (by omega),
        getE_dropLast _ _ (by omega)]
      exact hh k h0 (by omega)
    have hP2 : GrandOk cmp (h.dropLast.set 0 h[h.length - 1]!) 0 := by
      intro k hk hpk h00
      omega
    refine ⟨_, rfl, ?_, ?_⟩
    · unfold heapify
      rw [length_heapifyF]
      simp
    · unfold heapify
      exact heapifyF_isHeap cmp htot htrans _ _ _ (by omega) hP1 hP2
  · rw [if_neg hd]
    rw [List.length_dropLast] at hd
    refine ⟨_, rfl, by rw [List.length_dropLast], ?_⟩
    intro k h0 hk
    rw [List.length_dropLast] at hk
    omega

theorem isHeap_root_le (cmp : α → α → Int) (htot : CmpTotal cmp)
    (htrans : CmpTrans cmp) (h : List α) (hh : IsHeap cmp h) :
    ∀ k, k < h.length → cmp h[k]! h[0]! ≤ 0 := by
  intro k
  induction k using Nat.strong_induction_on with
  | _ k ih =>
    intro hk
    rcases Nat.eq_zero_or_pos k with h0 | h0
    · subst h0; exact cmp_refl cmp htot _
    · have hp := parentIdx_lt k h0
      exact htrans _ _ _ (hh k h0 hk) (ih (parentIdx k) hp (by omega))

theorem idxOf_spec [DecidableEq α] (node : α) :
    ∀ (l : List α) (i : Nat), idxOf node l = some i →
      i < l.length ∧ l[i]! = node ∧ ∀ k, k < i → l[k]! ≠ node := by
  intro l
  induction l with
  | nil => intro i hi; simp [idxOf] at hi
  | cons x t ih =>
    intro i hi
    rw [idxOf] at hi
    by_cases hx : x = node
    · rw [if_pos hx] at hi
      cases hi
      refine ⟨by simp, by rw [getE_cons_zero]; exact hx, ?_⟩
      intro k hk
      omega
    · rw [if_neg hx] at hi
      cases hio : idxOf node t with
      | none => rw [hio] at hi; simp at hi
      | some m =>
        rw [hio] at hi
        simp at hi
        subst hi
        obtain ⟨hm1, hm2, hm3⟩ := ih m hio
        refine ⟨by simpa using hm1, by rw [getE_cons_succ]; exact hm2, ?_⟩
        intro k hk
        cases k with
        | zero => rw [getE_cons_zero]; exact hx
        | succ k2 => rw [getE_cons_succ]; exact hm3 k2 (by omega)

theorem idxOf_none [DecidableEq α] (node : α) :
    ∀ (l : List α), idxOf node l = none → node ∉ l := by
  intro l
  induction l with
  | nil => intro _; simp
  | cons x t ih =>
    intro hn hmem
    rw [idxOf] at hn
    by_cases hx : x = node
    · rw [if_pos hx] at hn; simp at hn
    · rw [if_neg hx] at hn
      rcases List.mem_cons.mp hmem with he | ht
      · exact hx he.symm
      · have : idxOf node t = none := by
          cases hio : idxOf node t with
          | none => rfl
          | some m => rw [hio] at hn; simp at hn
        exact ih this ht

theorem idxOf_mem [DecidableEq α] (node : α) (l : List α) (hmem : node ∈ l) :
    ∃ i, idxOf node l = some i := by
  cases hio : idxOf node l with
  | some i => exact ⟨i, rfl⟩
  | none => exact absurd hmem (idxOf_none node l hio)

theorem update_isHeap_aux [DecidableEq α] (cmp : α → α → Int)
    (htot : CmpTotal cmp) (htrans : CmpTrans cmp) (h : List α) (node : α)
    (hh : IsHeap cmp h) : IsHeap cmp (update cmp h node) := by
  cases hio : idxOf node h with
  | none =>
    unfold update
    rw [hio]
    exact hh
  | some i =>
    unfold update
    rw [hio]
    have hsp := idxOf_spec node h i hio
    exact (changeKey_isHeap_aux cmp htot htrans h i node hh hsp.1).1

/-! ### Size bookkeeping for operation sequences -/

theorem add_eq (cmp : α → α → Int) (h : List α) (v : α) :
    add cmp h v = changeKey cmp (h ++ [v]) h.length v := by
  unfold add
  rw [show (h ++ [v]).length - 1 = h.length by simp]

theorem add_length (cmp : α → α → Int) (h : List α) (v : α) :
    (add cmp h v).1.length = h.length + 1 := by
  rw [add_eq, changeKey_length]
  simp

theorem runOps_spec (cmp : α → α → Int) :
    ∀ (ops : List (Op α)) (h : List α),
      (∀ n, countExtracts (ops.take n) ≤ countAdds (ops.take n) + h.length) →
      ∃ h2, runOps cmp ops h = some h2 ∧
        h2.length + countExtracts ops = h.length + countAdds ops := by
  intro ops
  induction ops with
  | nil =>
    intro h hpre
    exact ⟨h, rfl, by simp [countExtracts, countAdds]⟩
  | cons op rest ih =>
    intro h hpre
    cases op with
    | add v =>
      have hlen := add_length cmp h v
      have hpre2 : ∀ n, countExtracts (rest.take n) ≤
          countAdds (rest.take n) + (add cmp h v).1.length := by
        intro n
        have := hpre (n + 1)
        rw [List.take_succ_cons] at this
        simp only [countExtracts, countAdds] at this
        omega
      obtain ⟨h2, hrun, hcnt⟩ := ih _ hpre2
      refine ⟨h2, ?_, ?_⟩
      · rw [runOps]; exact hrun
      · simp only [countExtracts, countAdds]
        omega
    | extract =>
      have h1 := hpre 1
      rw [List.take_succ_cons] at h1
      simp only [List.take_zero, countExtracts, countAdds] at h1
      obtain ⟨hx, hex, hlen2⟩ := extract_some cmp h (by omega)
      have hpre2 : ∀ n, countExtracts (rest.take n) ≤
          countAdds (rest.take n) + hx.length := by
        intro n
        have := hpre (n + 1)
        rw [List.take_succ_cons] at this
        simp only [countExtracts, countAdds] at this
        omega
      obtain ⟨h2, hrun, hcnt⟩ := ih _ hpre2
      refine ⟨h2, ?_, ?_⟩
      · rw [runOps, hex]
        exact hrun
      · simp only [countExtracts, countAdds]
        omega

/-! ### Multiset (permutation) lemmas -/

theorem changeKey_perm (cmp : α → α → Int) (h : List α) (i : Nat) (v : α)
    (hi : i < h.length) : ((changeKey cmp h i v).1).Perm (h.set i v) := by
  show ((heapify cmp (siftUp cmp (h.set i v) i).1
    (siftUp cmp (h.set i v) i).2)).Perm _
  unfold heapify siftUp
  exact (heapifyF_perm cmp _ _ _).trans
    (siftUpF_perm cmp i _ i (by simpa using hi))

theorem eq_singleton_of_length_one (h : List α) (hl : h.length = 1) :
    h = [h[0]!] := by
  cases h with
  | nil => simp at hl
  | cons x t =>
    cases t with
    | nil => rw [getE_cons_zero]
    | cons y s => simp at hl

theorem dropLast_append_last : ∀ (h : List α), h.length ≠ 0 →
    h.dropLast ++ [h[h.length - 1]!] = h := by
  intro h
  induction h with
  | nil => intro hne; simp at hne
  | cons x t ih =>
    intro _
    cases t with
    | nil => simp [getE_cons_zero]
    | cons y s =>
      have h2 : (y :: s).dropLast ++ [(y :: s)[s.length]!] = y :: s := by
        simpa using ih (by simp)
      show x :: ((y :: s).dropLast ++ [(x :: y :: s)[s.length + 1]!]) =
        x :: y :: s
      rw [getE_cons_succ, h2]

theorem add_perm (cmp : α → α → Int) (h : List α) (v : α) :
    ((add cmp h v).1).Perm (v :: h) := by
  rw [add_eq]
  refine (changeKey_perm cmp (h ++ [v]) h.length v (by simp)).trans ?_
  have h1 : (h ++ [v])[h.length]? = some v := by simp
  have h2 := cons_set_perm (h ++ [v]) h.length v v h1
  exact h2.cons_inv.trans (List.perm_append_singleton v h)

theorem extract_perm (cmp : α → α → Int) (h : List α) (x : α) (h2 : List α)
    (hex : extract cmp h = some (x, h2)) : h.Perm (x :: h2) := by
  have hne : h.length ≠ 0 := by
    intro h0
    unfold extract at hex
    rw [if_pos h0] at hex
    simp at hex
  rw [extract_eq cmp h hne] at hex
  by_cases hd : 0 < h.dropLast.length
  · rw [if_pos hd] at hex
    simp only [Option.some.injEq, Prod.mk.injEq] at hex
    obtain ⟨hx, hh2⟩ := hex
    subst hx
    subst hh2
    have h01 : h.dropLast[0]? = some h[0]! := by
      rw [List.getElem?_eq_getElem hd]
      congr 1
      rw [getElem!_pos h 0 (by rw [List.length_dropLast] at hd; omega)]
      exact List.getElem_dropLast h 0 hd
    have h3 := cons_set_perm h.dropLast 0 h[0]! h[h.length - 1]! h01
    conv_lhs => rw [← dropLast_append_last h hne]
    refine (List.perm_append_singleton _ _).trans ?_
    refine h3.symm.trans ?_
    exact ((heapifyF_perm cmp _ _ _).symm).cons _
  · rw [if_neg hd] at hex
    simp only [Option.some.injEq, Prod.mk.injEq] at hex
    obtain ⟨hx, hh2⟩ := hex
    subst hx
    subst hh2
    rw [List.length_dropLast] at hd
    have h1 : h.length = 1 := by omega
    have hdl : h.dropLast = [] :=
      List.length_eq_zero.mp (by rw [List.length_dropLast]; omega)
    rw [hdl]
    conv_lhs => rw [eq_singleton_of_length_one h h1]

theorem update_perm [DecidableEq α] (cmp : α → α → Int) (h : List α)
    (node : α) (hmem : node ∈ h) : (update cmp h node).Perm h := by
  obtain ⟨i, hio⟩ := idxOf_mem node h hmem
  have hsp := idxOf_spec node h i hio
  unfold update
  rw [hio]
  refine (changeKey_perm cmp h i node hsp.1).trans ?_
  rw [← hsp.2.1, set_get_self h i hsp.1]

/-! ### Claim theorems -/

/-- C1: for every heap state reachable from the empty heap by any sequence
of `add`, successful `extract`, in-range `changeKey` and `update` calls
(with a total, transitive comparator), the heap property holds: for every
index `0 < i < length`, `cmp(elements[i], elements[parent(i)]) <= 0`. -/
theorem heap_invariant_reachable [DecidableEq α] (cmp : α → α → Int)
    (htot : CmpTotal cmp) (htrans : CmpTrans cmp) {h : List α}
    (hr : Reachable cmp h) : IsHeap cmp h := by
  induction hr with
  | empty => intro k h0 hk; simp at hk
  | add v _ ih => exact (add_aux cmp htot htrans _ v ih).1
  | @extract h1 x h2 _ hex ih =>
    have hne : h1.length ≠ 0 := by
      intro h0
      unfold extract at hex
      rw [if_pos h0] at hex
      simp at hex
    obtain ⟨h2x, hex2, _, hIs⟩ := extract_aux cmp htot htrans h1 hne ih
    rw [hex2] at hex
    simp only [Option.some.injEq, Prod.mk.injEq] at hex
    rw [← hex.2]
    exact hIs
  | changeKey i v _ hi ih =>
    exact (changeKey_isHeap_aux cmp htot htrans _ i v ih hi).1
  | update node _ ih =>
    exact update_isHeap_aux cmp htot htrans _ node ih

/-- Witness for C1: a concrete state reached by two adds and an extract. -/
theorem heap_invariant_reachable_witness : IsHeap intCmp ([3] : List Int) :=
  heap_invariant_reachable intCmp intCmp_total intCmp_trans
    (Reachable.extract (Reachable.add 3 (Reachable.add 5 Reachable.empty))
      (show Heap.extract intCmp
          (Heap.add intCmp (Heap.add intCmp ([] : List Int) 5).1 3).1
          = some (5, [3]) by decide))

/-- C2 (code evidence): with the default comparator `a - b` the sift
operations promote the larger value, so the heap extracts in descending
numeric order: adding [5,3,8,1,4] and extracting five times yields
[8,5,4,3,1], not the ascending [1,3,4,5,8] claimed for a min-heap. -/
theorem default_cmp_extract_order :
    drain intCmp 5 (addAll intCmp [] [5, 3, 8, 1, 4]) = [8, 5, 4, 3, 1] ∧
    drain intCmp 5 (addAll intCmp [] [5, 3, 8, 1, 4]) ≠ [1, 3, 4, 5, 8] := by
  constructor
  · decide
  · decide

/-- C3: on a non-empty valid heap (total, transitive comparator),
`extract` returns the element at position 0, which every stored element
fails to outrank; the length drops by exactly one and the heap property is
restored on the result. -/
theorem extract_spec (cmp : α → α → Int) (htot : CmpTotal cmp)
    (htrans : CmpTrans cmp) (h : List α) (hne : h ≠ [])
    (hh : IsHeap cmp h) :
    ∃ h2, extract cmp h = some (h[0]!, h2) ∧
      (∀ k, k < h.length → cmp h[k]! h[0]! ≤ 0) ∧
      h2.length = h.length - 1 ∧ IsHeap cmp h2 := by
  have hne0 : h.length ≠ 0 := by
    intro h0
    exact hne (List.length_eq_zero.mp h0)
  obtain ⟨h2, he, hl, hi⟩ := extract_aux cmp htot htrans h hne0 hh
  exact ⟨h2, he, isHeap_root_le cmp htot htrans h hh, hl, hi⟩

/-- Witness for C3 on the concrete heap [8,4,5,1,3]. -/
theorem extract_spec_witness :
    ∃ h2, Heap.extract intCmp ([8, 4, 5, 1, 3] : List Int)
        = some (([8, 4, 5, 1, 3] : List Int)[0]!, h2) ∧
      (∀ k, k < ([8, 4, 5, 1, 3] : List Int).length →
        intCmp ([8, 4, 5, 1, 3] : List Int)[k]!
          ([8, 4, 5, 1, 3] : List Int)[0]! ≤ 0) ∧
      h2.length = ([8, 4, 5, 1, 3] : List Int).length - 1 ∧
      IsHeap intCmp h2 :=
  extract_spec intCmp intCmp_total intCmp_trans [8, 4, 5, 1, 3]
    (by decide) (by decide)

/-- C4: `extract` fails (the `EmptyHeap` throw, modelled as `none`) if and
only if the heap has zero elements; the throw happens before any mutation,
so no successor state is produced, and every other operation is a total
function that signals no error. -/
theorem extract_none_iff (cmp : α → α → Int) (h : List α) :
    extract cmp h = none ↔ h = [] := by
  constructor
  · intro he
    by_cases h0 : h.length = 0
    · exact List.length_eq_zero.mp h0
    · obtain ⟨h2, hex, _⟩ := extract_some cmp h h0
      rw [hex] at he
      simp at he
  · intro he
    subst he
    rfl

/-- C5: starting from the empty heap, an interleaving of `k` adds and `m`
extracts in which every prefix has at least as many adds as extracts runs
with every extract succeeding, and the final length is `k - m`. -/
theorem size_law (cmp : α → α → Int) (ops : List (Op α))
    (hpre : ∀ n, n ≤ ops.length →
      countExtracts (ops.take n) ≤ countAdds (ops.take n)) :
    ∃ h2, runOps cmp ops [] = some h2 ∧
      h2.length = countAdds ops - countExtracts ops := by
  have hpre2 : ∀ n, countExtracts (ops.take n) ≤
      countAdds (ops.take n) + ([] : List α).length := by
    intro n
    rcases le_or_lt n ops.length with hn | hn
    · simpa using hpre n hn
    · rw [List.take_of_length_le (by omega)]
      have := hpre ops.length (Nat.le_refl _)
      rw [List.take_length] at this
      simpa using this
  obtain ⟨h2, hrun, hcnt⟩ := runOps_spec cmp ops [] hpre2
  refine ⟨h2, hrun, ?_⟩
  simp at hcnt
  omega

/-- Witness for C5 on a concrete interleaving of three adds and two
extracts. -/
theorem size_law_witness :
    ∃ h2, runOps intCmp
        [Op.add (5 : Int), Op.add 3, Op.extract, Op.add 7, Op.extract] []
        = some h2 ∧
      h2.length = countAdds
          [Op.add (5 : Int), Op.add 3, Op.extract, Op.add 7, Op.extract]
        - countExtracts
          [Op.add (5 : Int), Op.add 3, Op.extract, Op.add 7, Op.extract] :=
  size_law intCmp _ (by decide)

/-- C6: `add` appends the value at the end, repositions it upward, and
returns the final resting index of the inserted value: the returned index
is in range, the slot there holds the inserted value (the trailing
downward pass never moves it), and the sequence grew by one. -/
theorem add_returns_index_of_value (cmp : α → α → Int) (htot : CmpTotal cmp)
    (htrans : CmpTrans cmp) (h : List α) (v : α) (hh : IsHeap cmp h) :
    (add cmp h v).1[(add cmp h v).2]! = v ∧
    (add cmp h v).2 < (add cmp h v).1.length ∧
    (add cmp h v).1.length = h.length + 1 := by
  obtain ⟨_, hl, hb, hv⟩ := add_aux cmp htot htrans h v hh
  exact ⟨hv, hb, hl⟩

/-- Witness for C6: inserting 7 into the valid heap [5]. -/
theorem add_returns_index_of_value_witness :
    (Heap.add intCmp ([5] : List Int) 7).1[(Heap.add intCmp
      ([5] : List Int) 7).2]! = 7 ∧
    (Heap.add intCmp ([5] : List Int) 7).2
      < (Heap.add intCmp ([5] : List Int) 7).1.length ∧
    (Heap.add intCmp ([5] : List Int) 7).1.length
      = ([5] : List Int).length + 1 :=
  add_returns_index_of_value intCmp intCmp_total intCmp_trans [5] 7
    (by decide)

/-- C7: `changeKey` overwrites the in-range slot and returns the index
reached by the upward pass; whenever the trailing downward pass does not
move the element — in particular when the upward pass moved it at least
one step, or when the new value already outranks both children — the slot
at the returned index holds the new value. -/
theorem changeKey_value_at_returned_index (cmp : α → α → Int)
    (htot : CmpTotal cmp) (htrans : CmpTrans cmp) (h : List α) (i : Nat)
    (v : α) (hh : IsHeap cmp h) (hi : i < h.length)
    (hcase : (siftUp cmp (h.set i v) i).2 ≠ i ∨
      heapify cmp (siftUp cmp (h.set i v) i).1 (siftUp cmp (h.set i v) i).2
        = (siftUp cmp (h.set i v) i).1 ∨
      ∀ k, 0 < k → k < h.length → parentIdx k = i → cmp h[k]! v ≤ 0) :
    (changeKey cmp h i v).2 = (siftUp cmp (h.set i v) i).2 ∧
    (changeKey cmp h i v).1[(changeKey cmp h i v).2]! = v := by
  have hi1 : i < (h.set i v).length := by simpa using hi
  have hget := siftUpF_get cmp i (h.set i v) i hi1
  have hvv : (siftUpF cmp i (h.set i v) i).1[(siftUpF cmp i
      (h.set i v) i).2]! = v := by
    rw [hget.2.2, getE_set_self h i v hi]
  have hA := set_UpA cmp h i v hh
  have hB := set_GrandOk cmp htrans h i v hh hi
  have hid : heapify cmp (siftUp cmp (h.set i v) i).1
      (siftUp cmp (h.set i v) i).2 = (siftUp cmp (h.set i v) i).1 := by
    rcases hcase with hc | hc | hc
    · have hIs := siftUpF_moved_isHeap cmp htot htrans i (h.set i v) i
        (Nat.le_refl i) hi1 hA hB hc
      unfold heapify
      exact heapifyF_of_isHeap cmp _ _ _ hIs
    · exact hc
    · have hC : ChildOk cmp (h.set i v) i := by
        intro k h0k hk hpk
        rw [List.length_set] at hk
        have hik : i < k := by have := parentIdx_lt k h0k; omega
        rw [getE_set_self h i v hi, getE_set_other _ i k _ (by omega)]
        exact hc k h0k hk hpk
      have hIs := siftUpF_isHeap cmp htot htrans i (h.set i v) i
        (Nat.le_refl i) hi1 hA hB hC
      unfold heapify
      exact heapifyF_of_isHeap cmp _ _ _ hIs
  refine ⟨rfl, ?_⟩
  show (heapify cmp (siftUp cmp (h.set i v) i).1
    (siftUp cmp (h.set i v) i).2)[(siftUp cmp (h.set i v) i).2]! = v
  rw [hid]
  exact hvv

/-- Witness for C7: raising slot 3 of [8,4,5,1,3] to 9 moves it up to the
root, and the returned index holds 9. -/
theorem changeKey_value_at_returned_index_witness :
    (Heap.changeKey intCmp ([8, 4, 5, 1, 3] : List Int) 3 9).2
      = (siftUp intCmp (([8, 4, 5, 1, 3] : List Int).set 3 9) 3).2 ∧
    (Heap.changeKey intCmp ([8, 4, 5, 1, 3] : List Int) 3 9).1[
      (Heap.changeKey intCmp ([8, 4, 5, 1, 3] : List Int) 3 9).2]! = 9 :=
  changeKey_value_at_returned_index intCmp intCmp_total intCmp_trans
    [8, 4, 5, 1, 3] 3 9 (by decide) (by decide) (Or.inl (by decide))

/-- C8: `top` is a pure observer: it returns the element at position 0,
or the `undefined`-equivalent `none` on an empty heap, and being a
function of the state it mutates nothing, so consecutive calls agree. -/
theorem top_spec (h : List α) :
    (h = [] → top h = none) ∧ ∀ _ : h ≠ [], top h = some h[0]! := by
  cases h with
  | nil => exact ⟨fun _ => rfl, fun hne => absurd rfl hne⟩
  | cons x t =>
    refine ⟨fun hc => by simp at hc, fun _ => ?_⟩
    rw [getE_cons_zero]
    show (x :: t)[0]? = some x
    simp

/-- Witness for C8 on a non-empty and on an empty heap. -/
theorem top_spec_witness :
    Heap.top ([3, 1] : List Int) = some 3 ∧
    Heap.top ([] : List Int) = none :=
  ⟨(top_spec [3, 1]).2 (by decide), (top_spec ([] : List Int)).1 rfl⟩

/-- C9: `update` locates the node by linear equality scan; if it occurs
it delegates to `changeKey` at the first (lowest) matching index with the
same value, and otherwise the heap state is left completely unchanged. -/
theorem update_spec [DecidableEq α] (cmp : α → α → Int) (h : List α)
    (node : α) :
    (node ∉ h → update cmp h node = h) ∧
    (node ∈ h → ∃ i, i < h.length ∧ h[i]! = node ∧
      (∀ k, k < i → h[k]! ≠ node) ∧
      update cmp h node = (changeKey cmp h i node).1) := by
  cases hio : idxOf node h with
  | none =>
    refine ⟨fun _ => ?_, fun hmem => ?_⟩
    · unfold update; rw [hio]
    · exact absurd hmem (idxOf_none node h hio)
  | some i =>
    obtain ⟨h1, h2, h3⟩ := idxOf_spec node h i hio
    refine ⟨fun hnot => ?_, fun _ => ⟨i, h1, h2, h3, ?_⟩⟩
    · exact absurd (h2 ▸ getE_mem h i h1) hnot
    · unfold update; rw [hio]

/-- Witness for C9: updating an absent node leaves the heap unchanged. -/
theorem update_spec_witness :
    Heap.update intCmp ([5, 3] : List Int) 4 = [5, 3] :=
  (update_spec intCmp [5, 3] 4).1 (by decide)

/-- C10: the repositioning passes only permute the stored elements:
`add v` yields the old multiset plus `v`, a successful `extract` yields
the old multiset minus the returned root, and `update` of a present node
leaves the multiset unchanged. -/
theorem multiset_frame [DecidableEq α] (cmp : α → α → Int) (h : List α)
    (v node : α) :
    ((add cmp h v).1).Perm (v :: h) ∧
    (∀ x h2, extract cmp h = some (x, h2) → h.Perm (x :: h2)) ∧
    (node ∈ h → (update cmp h node).Perm h) :=
  ⟨add_perm cmp h v, fun x h2 hex => extract_perm cmp h x h2 hex,
    fun hmem => update_perm cmp h node hmem⟩

/-- Witness for C10 on the concrete heap [5,3]. -/
theorem multiset_frame_witness :
    ((Heap.add intCmp ([5, 3] : List Int) 4).1).Perm (4 :: [5, 3]) ∧
    ([5, 3] : List Int).Perm (5 :: [3]) ∧
    (Heap.update intCmp ([5, 3] : List Int) 3).Perm [5, 3] :=
  ⟨(multiset_frame intCmp [5, 3] 4 3).1,
    (multiset_frame intCmp [5, 3] 4 3).2.1 5 [3] (by decide),
    (multiset_frame intCmp [5, 3] 4 3).2.2 (by decide)⟩

end Heap
